import Mathlib

/-!
Shallow embedding of `src/merge_multipart_vr.py` (stash-vr-merger-plugin):
the part-token parser (`PART_TOKEN`, `AB_TOKEN`, `roman_to_int`,
`normalize_basename`), the group builder and merge planner of `main`
(lines 319-384), and the title-cleaning step.  Strings are modelled as
`List Char`; Python `re` matching is compiled into explicit backtracking
scanners specialised to the two regexes of the source.
-/

namespace MergeVR

/-- The boundary class `[ _.\-\(\)\[\]]` of `PART_TOKEN` / `AB_TOKEN`. -/
def isSep (c : Char) : Bool :=
  c == ' ' || c == '_' || c == '.' || c == '-' ||
  c == '(' || c == ')' || c == '[' || c == ']'

/-- The separator class `[ _.\-]` between keyword and numeral. -/
def isMidSep (c : Char) : Bool :=
  c == ' ' || c == '_' || c == '.' || c == '-'

/-- ASCII decimal digit, modelling `\d` on the inputs in scope. -/
def isDigitC (c : Char) : Bool := '0' ≤ c && c ≤ '9'

/-- A roman-numeral character of the class `[ivx]` under `re.I`. -/
def isIvx (c : Char) : Bool :=
  c.toLower == 'i' || c.toLower == 'v' || c.toLower == 'x'

/-- Whitespace as matched by `\s` / stripped by `str.strip()` (ASCII part). -/
def isWs (c : Char) : Bool :=
  c == ' ' || c == '\t' || c == '\n' || c == '\r' ||
  c == '\x0b' || c == '\x0c'

/-- A word character for `\b` word boundaries (ASCII model of `\w`). -/
def isWordChar (c : Char) : Bool := c.isAlphanum || c == '_'

/-- Scanner for `re.sub(r"\s+", " ", _)`: every maximal whitespace run
becomes a single space.  The flag records whether the scanner is inside a
run whose replacement space was already emitted. -/
def squashWsAux : Bool → List Char → List Char
  | _, [] => []
  | true, c :: rest =>
      if isWs c then squashWsAux true rest else c :: squashWsAux false rest
  | false, c :: rest =>
      if isWs c then ' ' :: squashWsAux true rest else c :: squashWsAux false rest

def squashWs (l : List Char) : List Char := squashWsAux false l

/-- `str.strip()`: drop leading and trailing whitespace. -/
def stripWs (l : List Char) : List Char :=
  ((l.dropWhile isWs).reverse.dropWhile isWs).reverse

/-- `re.sub(r"\s+", " ", l).strip()` — the whitespace-collapsing step of
`normalize_basename` (line 197 / 205 of the source). -/
def collapseWs (l : List Char) : List Char := stripWs (squashWs l)

/-- Index of the last occurrence of `c`, as Python `str.rfind`. -/
def rfindChar (c : Char) : List Char → Option Nat
  | [] => none
  | x :: xs =>
      match rfindChar c xs with
      | some j => some (j + 1)
      | none => if x == c then some 0 else none

/-- The final path component, as `pathlib.PurePath.name` on plain names. -/
def lastComponent (l : List Char) : List Char :=
  match rfindChar '/' l with
  | some i => l.drop (i + 1)
  | none => l

/-- `pathlib.Path(name).stem`: the name minus its last suffix; a dot at
position 0 or at the very end does not begin a suffix. -/
def stemList (l : List Char) : List Char :=
  let base := lastComponent l
  match rfindChar '.' base with
  | some i => if 0 < i ∧ i + 1 < base.length then base.take i else base
  | none => base

def stemOf (name : String) : String := String.mk (stemList name.data)

/-- `str(pathlib.Path(p).parent)` for the simple paths in scope. -/
def dirOf (p : String) : String :=
  match rfindChar '/' p.data with
  | none => "."
  | some 0 => "/"
  | some i => String.mk (p.data.take i)

/-- `numerals.get(ch, 0)` after `s.upper()` in `roman_to_int`. -/
def romanVal (c : Char) : Int :=
  if c.toUpper = 'I' then 1
  else if c.toUpper = 'V' then 5
  else if c.toUpper = 'X' then 10
  else 0

/-- The loop of `roman_to_int` (source lines 170-178): scan the reversed
string with accumulators `prev` and `total`; subtract a value smaller than
`prev`, otherwise add it and set `prev` to it. -/
def romanLoop : List Char → Int → Int → Int
  | [], _, total => total
  | c :: rest, prev, total =>
      let val := romanVal c
      if val < prev then romanLoop rest prev (total - val)
      else romanLoop rest val (total + val)

/-- The decoded total of `roman_to_int s` before the positivity check. -/
def romanTotalOf (s : List Char) : Int := romanLoop s.reverse 0 0

/-- `roman_to_int` (source lines 167-179): `total if total > 0 else None`. -/
def roman_to_int (s : List Char) : Option Int :=
  let t := romanTotalOf s
  if t > 0 then some t else none

/-- Python truthiness of `X or None` for `X : Optional[int]`. -/
def pyOrNone (x : Option Int) : Option Int :=
  match x with
  | none => none
  | some v => if v = 0 then none else some v

/-- `int(num)` on a pure digit string. -/
def digitsToInt (l : List Char) : Int :=
  Int.ofNat (l.foldl (fun acc c => acc * 10 + (c.toNat - '0'.toNat)) 0)

/-- Lines 192-195 of the source: `int(num)` when the capture is all
digits, otherwise `roman_to_int(num) or None`. -/
def partOfNum (num : List Char) : Option Int :=
  if num ≠ [] ∧ num.all isDigitC then some (digitsToInt num)
  else pyOrNone (roman_to_int num)

/-- Case-insensitive literal prefix: drop `kw` from the front of `l`
(the `(?i)` keyword alternatives are lowercase literals). -/
def ciDropLit : List Char → List Char → Option (List Char)
  | [], l => some l
  | _, [] => none
  | k :: ks, c :: cs => if c.toLower == k then ciDropLit ks cs else none

/-- Candidate capture lengths tried by a greedy bounded quantifier: the
lengths `min hi run, ..., 1` in the order a backtracking engine tries
them, where `run` is the length of the available character run. -/
def greedyLens (hi run : Nat) : List Nat :=
  (List.range (min hi run)).reverse.map (· + 1)

/-- Attempt `(?P<num>(?:\d{1,2}|[ivx]{1,6}))(?:$|[ _.\-\(\)\[\]])` at the
head of `l`: digit captures are tried before roman ones, longer captures
before shorter, and the right boundary prefers `$` over consuming a
separator.  Returns `(consumed, capture)`.  With `allowRoman = false`
only the digit alternative is available (used to state the title-grammar
of the specification, which restricts to 1-2 digit numbers). -/
def tryNumBoundary (allowRoman : Bool) (l : List Char) : Option (Nat × List Char) :=
  let dRun := (l.takeWhile isDigitC).length
  let rRun := (l.takeWhile isIvx).length
  let cands := greedyLens 2 dRun ++ (if allowRoman then greedyLens 6 rRun else [])
  cands.findSome? fun k =>
    match l.drop k with
    | [] => some (k, l.take k)
    | c :: _ => if isSep c then some (k + 1, l.take k) else none

/-- Attempt `[ _.\-]*` then the numeral-and-boundary at the head of `l`,
backtracking the greedy separator run from longest to shortest. -/
def matchSepNum (allowRoman : Bool) (l : List Char) : Option (Nat × List Char) :=
  let m := (l.takeWhile isMidSep).length
  ((List.range (m + 1)).reverse).findSome? fun s =>
    (tryNumBoundary allowRoman (l.drop s)).map fun p => (s + p.1, p.2)

/-- One keyword alternative followed by separators, numeral and boundary. -/
def matchKwSepNum (allowRoman : Bool) (kw l : List Char) : Option (Nat × List Char) :=
  match ciDropLit kw l with
  | none => none
  | some rest => (matchSepNum allowRoman rest).map fun p => (kw.length + p.1, p.2)

/-- `(?:pt|part|cd|disc)` then the tail of `PART_TOKEN`, alternatives in
source order (no two keyword literals can match the same characters). -/
def matchAfterBoundary (allowRoman : Bool) (l : List Char) : Option (Nat × List Char) :=
  match matchKwSepNum allowRoman ['p', 't'] l with
  | some r => some r
  | none =>
  match matchKwSepNum allowRoman ['p', 'a', 'r', 't'] l with
  | some r => some r
  | none =>
  match matchKwSepNum allowRoman ['c', 'd'] l with
  | some r => some r
  | none => matchKwSepNum allowRoman ['d', 'i', 's', 'c'] l

/-- Attempt the whole `PART_TOKEN` at the head of `l`: the left boundary
`(?:^|[ _.\-\(\)\[\]])` tries `^` first (only available when the current
position is the start of the string) and otherwise consumes one
separator character. -/
def matchTokAt (allowRoman : Bool) (l : List Char) (atStart : Bool) :
    Option (Nat × List Char) :=
  match (if atStart then matchAfterBoundary allowRoman l else none) with
  | some r => some r
  | none =>
    match l with
    | [] => none
    | c :: rest =>
        if isSep c then
          (matchAfterBoundary allowRoman rest).map fun p => (p.1 + 1, p.2)
        else none

/-- A match of `PART_TOKEN`: absolute span and the `num` capture. -/
structure TokenMatch where
  start : Nat
  stop : Nat
  num : List Char
deriving DecidableEq

/-- `PART_TOKEN.search`: try each start position left to right. -/
def searchTokAux (allowRoman : Bool) : List Char → Nat → Option TokenMatch
  | l, pos =>
      match matchTokAt allowRoman l (pos == 0) with
      | some p => some ⟨pos, pos + p.1, p.2⟩
      | none =>
          match l with
          | [] => none
          | _ :: rest => searchTokAux allowRoman rest (pos + 1)

def partTokenSearch (l : List Char) : Option TokenMatch :=
  searchTokAux true l 0

/-- `PART_TOKEN.sub(" ", _)`: replace each leftmost match with a single
space and resume scanning at the end of the match (Python `re.sub`
non-overlapping semantics).  Every match consumes at least three
characters, so fuel `l.length + 1` never runs out. -/
def subTokAux (allowRoman : Bool) : Nat → List Char → Bool → List Char
  | 0, l, _ => l
  | fuel + 1, l, atStart =>
      match matchTokAt allowRoman l atStart with
      | some p => ' ' :: subTokAux allowRoman fuel (l.drop p.1) false
      | none =>
          match l with
          | [] => []
          | c :: rest => c :: subTokAux allowRoman fuel rest false

def partTokenSubAll (l : List Char) : List Char :=
  subTokAux true (l.length + 1) l true

/-- Attempt `(?P<ab>[AB])(?:$|[ _.\-\(\)\[\]])` (case-insensitive) at the
head of `l`, returning `(consumed, capturedLetter)`. -/
def matchABAfterBoundary (l : List Char) : Option (Nat × Char) :=
  match l with
  | [] => none
  | c :: rest =>
      if c.toLower == 'a' || c.toLower == 'b' then
        match rest with
        | [] => some (1, c)
        | d :: _ => if isSep d then some (2, c) else none
      else none

/-- Attempt the whole `AB_TOKEN` at the head of `l` (same left-boundary
treatment as `matchTokAt`). -/
def matchABAt (l : List Char) (atStart : Bool) : Option (Nat × Char) :=
  match (if atStart then matchABAfterBoundary l else none) with
  | some r => some r
  | none =>
    match l with
    | [] => none
    | c :: rest =>
        if isSep c then (matchABAfterBoundary rest).map fun p => (p.1 + 1, p.2)
        else none

/-- A match of `AB_TOKEN`: absolute span and the `ab` capture. -/
structure ABMatch where
  start : Nat
  stop : Nat
  ab : Char
deriving DecidableEq

/-- `AB_TOKEN.search`. -/
def searchABAux : List Char → Nat → Option ABMatch
  | l, pos =>
      match matchABAt l (pos == 0) with
      | some p => some ⟨pos, pos + p.1, p.2⟩
      | none =>
          match l with
          | [] => none
          | _ :: rest => searchABAux rest (pos + 1)

def abTokenSearch (l : List Char) : Option ABMatch :=
  searchABAux l 0

/-- `AB_TOKEN.sub(" ", _)`. -/
def subABAux : Nat → List Char → Bool → List Char
  | 0, l, _ => l
  | fuel + 1, l, atStart =>
      match matchABAt l atStart with
      | some p => ' ' :: subABAux fuel (l.drop p.1) false
      | none =>
          match l with
          | [] => []
          | c :: rest => c :: subABAux fuel rest false

def abTokenSubAll (l : List Char) : List Char :=
  subABAux (l.length + 1) l true

/-- `normalize_basename` (source lines 181-207): prefer the explicit
part pattern, then the A/B pattern, else return the stem unmodified. -/
def normalize_basename (name : String) : String × Option Int :=
  let stem := stemList name.data
  match partTokenSearch stem with
  | some m =>
      (String.mk (collapseWs (partTokenSubAll stem)), partOfNum m.num)
  | none =>
    match abTokenSearch stem with
    | some m2 =>
        let letter := m2.ab.toUpper
        let part : Option Int :=
          if letter = 'A' then some 1 else if letter = 'B' then some 2 else none
        (String.mk (collapseWs (abTokenSubAll stem)), part)
    | none => (String.mk stem, none)

/-- A `files` element of a scene: `{ path, basename }`. -/
structure FileRef where
  path : String
  basename : String
deriving DecidableEq

/-- A scene record as fetched from the catalog. -/
structure MediaRecord where
  id : String
  title : String
  files : List FileRef
  tags : List String
deriving DecidableEq

/-- A bucket entry `{"scene": sc, "part": part, "basename": ...}`
(source line 337). -/
structure GroupEntry where
  scene : MediaRecord
  part : Int
  basename : String
deriving DecidableEq

/-- Python `str.lower()` (ASCII model, per-character lowering). -/
def lowerStr (s : String) : String := String.mk (s.data.map Char.toLower)

/-- `groups.setdefault(key, []).append(entry)` on an insertion-ordered
association list (Python dicts preserve insertion order). -/
def addToGroups (gs : List ((String × String) × List GroupEntry))
    (k : String × String) (e : GroupEntry) :
    List ((String × String) × List GroupEntry) :=
  match gs with
  | [] => [(k, [e])]
  | (k', es) :: rest =>
      if k' = k then (k', es ++ [e]) :: rest
      else (k', es) :: addToGroups rest k e

/-- One iteration of the grouping loop of `main` (source lines 320-338):
skip a record with no files, anchor on the first file, skip the record
when its parsed part is `None`, and bucket by `(dirpath, base.lower())`. -/
def groupStep (gs : List ((String × String) × List GroupEntry))
    (sc : MediaRecord) : List ((String × String) × List GroupEntry) :=
  match sc.files with
  | [] => gs
  | f :: _ =>
      match (normalize_basename f.basename).2 with
      | none => gs
      | some p =>
          addToGroups gs (dirOf f.path, lowerStr (normalize_basename f.basename).1)
            ⟨sc, p, f.basename⟩

/-- The grouping loop of `main` over all fetched records. -/
def buildGroups (recs : List MediaRecord) :
    List ((String × String) × List GroupEntry) :=
  recs.foldl groupStep []

/-- The sort key of `items.sort(key=lambda x: x["part"])`. -/
def partLE (a b : GroupEntry) : Prop := a.part ≤ b.part

instance : DecidableRel partLE := fun a b => Int.decLe a.part b.part

instance : IsTotal GroupEntry partLE := ⟨fun a b => Int.le_total a.part b.part⟩

instance : IsTrans GroupEntry partLE := ⟨fun _ _ _ h h' => le_trans h h'⟩

/-- Python's `list.sort` is a stable ascending sort; any stable sort by
the same key computes the same list, so it is embedded as insertion
sort by `partLE`. -/
def sortByPart (items : List GroupEntry) : List GroupEntry :=
  items.insertionSort partLE

/-- The plan produced for one qualifying bucket (source lines 344-367). -/
structure MergePlan where
  key : String × String
  target : MediaRecord
  sources : List MediaRecord
deriving DecidableEq

/-- Plan a single bucket: skip buckets of size < 2; otherwise sort by
part, take the head as target and the remaining scenes as sources. -/
def planBucket (k : String × String) (items : List GroupEntry) :
    Option MergePlan :=
  if items.length < 2 then none
  else
    match sortByPart items with
    | [] => none
    | t :: rest => some ⟨k, t.scene, rest.map (·.scene)⟩

/-- The planning loop over all buckets, in bucket-insertion order. -/
def planMerges (gs : List ((String × String) × List GroupEntry)) :
    List MergePlan :=
  gs.filterMap fun g => planBucket g.1 g.2

/-- The whole core pipeline: group, then plan. -/
def pipelinePlans (recs : List MediaRecord) : List MergePlan :=
  planMerges (buildGroups recs)

/-- One keyword alternative of the title regex
`\b(?:pt|part|cd|disc)[ _.\-]*\d+\b`: keyword, greedy separator run,
a nonempty greedy digit run, then a zero-width word boundary (which
requires end-of-string or a non-word character, since a digit is a word
character).  Returns the number of characters consumed. -/
def titleKwAttempt (kw l : List Char) : Option Nat :=
  match ciDropLit kw l with
  | none => none
  | some r1 =>
      let s := (r1.takeWhile isMidSep).length
      let r2 := r1.drop s
      let d := (r2.takeWhile isDigitC).length
      if d = 0 then none
      else
        match r2.drop d with
        | [] => some (kw.length + s + d)
        | c :: _ => if isWordChar c then none else some (kw.length + s + d)

/-- Attempt the title regex at the head of `l`; `prevWord` records
whether the character just before this position is a word character
(the leading `\b` fails when it is, since every keyword starts with a
word character). -/
def titleMatchAt (l : List Char) (prevWord : Bool) : Option Nat :=
  if prevWord then none
  else
    match titleKwAttempt ['p', 't'] l with
    | some n => some n
    | none =>
    match titleKwAttempt ['p', 'a', 'r', 't'] l with
    | some n => some n
    | none =>
    match titleKwAttempt ['c', 'd'] l with
    | some n => some n
    | none => titleKwAttempt ['d', 'i', 's', 'c'] l

/-- `re.sub` of the title regex with the empty replacement.  After a
match the last consumed character is a digit, hence a word character. -/
def titleSubAux : Nat → List Char → Bool → List Char
  | 0, l, _ => l
  | fuel + 1, l, prevWord =>
      match titleMatchAt l prevWord with
      | some n => titleSubAux fuel (l.drop n) true
      | none =>
          match l with
          | [] => []
          | c :: rest => c :: titleSubAux fuel rest (isWordChar c)

def titleSub (l : List Char) : List Char :=
  titleSubAux (l.length + 1) l false

/-- `re.sub(r"\s{2,}", " ", _)`: only whitespace runs of length at least
two are replaced by a single space; a lone whitespace character is kept
as it is.  The flag records being inside an already-replaced run. -/
def squashWs2Aux : Bool → List Char → List Char
  | _, [] => []
  | true, c :: rest =>
      if isWs c then squashWs2Aux true rest else c :: squashWs2Aux false rest
  | false, c :: rest =>
      if isWs c then
        match rest with
        | [] => [c]
        | d :: _ =>
            if isWs d then ' ' :: squashWs2Aux true rest
            else c :: squashWs2Aux false rest
      else c :: squashWs2Aux false rest

def squashWs2 (l : List Char) : List Char := squashWs2Aux false l

/-- Source lines 381-382: strip the digit part token from the title,
`strip()`, then collapse runs of two or more whitespace characters. -/
def cleanTitle (title : String) : String :=
  String.mk (squashWs2 (stripWs (titleSub title.data)))

/-- Source lines 383-384: issue a title update exactly when the cleaned
title is nonempty and differs from the original. -/
def recommendTitle (title : String) : Option String :=
  let t := cleanTitle title
  if t ≠ "" ∧ t ≠ title then some t else none

/-- Modelled from the spec (section 4.7 of the claim / spec section 4.3
`recommendedTitle`): remove every substring matching the section-4.1
part grammar restricted to 1-2 digit numbers (keyword, optional
separators, digits, separator/anchor bounded), collapse whitespace and
trim.  This is the statement the claim makes about titles; it is
compared against `cleanTitle`, which embeds what the code does. -/
def specTitleClean (title : String) : String :=
  String.mk (collapseWs (subTokAux false (title.data.length + 1) title.data true))

/-- The canonical (standard subtractive notation) roman numeral of the
ones digit, using only I, V, X. -/
def onesRoman (k : Nat) : List Char :=
  if k = 9 then ['I', 'X']
  else if 5 ≤ k then 'V' :: List.replicate (k - 5) 'I'
  else if k = 4 then ['I', 'V']
  else List.replicate k 'I'

/-- The canonical roman numeral of `n < 40` in standard subtractive
notation over the alphabet I, V, X. -/
def canonicalRoman (n : Nat) : List Char :=
  List.replicate (n / 10) 'X' ++ onesRoman (n % 10)

/-- No two adjacent whitespace characters. -/
def noAdjWsRel (a b : Char) : Prop := ¬(isWs a = true ∧ isWs b = true)

/-- `l` is whitespace-collapsed text: whitespace only as single spaces,
no leading or trailing whitespace, no two adjacent whitespace chars. -/
def CollapsedText (l : List Char) : Prop :=
  (∀ c ∈ l, isWs c = true → c = ' ') ∧
  (∀ c ∈ l.head?, isWs c = false) ∧
  (∀ c ∈ l.getLast?, isWs c = false) ∧
  List.Chain' noAdjWsRel l

theorem squashWsAux_ws_eq_space :
    ∀ (l : List Char) (b : Bool) (c : Char),
      c ∈ squashWsAux b l → isWs c = true → c = ' ' := by
  intro l
  induction l with
  | nil => intro b c hc _; cases b <;> simp [squashWsAux] at hc
  | cons x rest ih =>
    intro b c hc hw
    cases b <;> simp only [squashWsAux] at hc
    · by_cases hx : isWs x = true
      · rw [if_pos hx] at hc
        rcases List.mem_cons.mp hc with rfl | hc
        · rfl
        · exact ih true c hc hw
      · rw [if_neg hx] at hc
        rcases List.mem_cons.mp hc with rfl | hc
        · exact absurd hw hx
        · exact ih false c hc hw
    · by_cases hx : isWs x = true
      · rw [if_pos hx] at hc; exact ih true c hc hw
      · rw [if_neg hx] at hc
        rcases List.mem_cons.mp hc with rfl | hc
        · exact absurd hw hx
        · exact ih false c hc hw

theorem head_squashWsAux_true :
    ∀ (l : List Char) (c : Char),
      (squashWsAux true l).head? = some c → isWs c = false := by
  intro l
  induction l with
  | nil => intro c hc; simp [squashWsAux] at hc
  | cons x rest ih =>
    intro c hc
    simp only [squashWsAux] at hc
    by_cases hx : isWs x = true
    · rw [if_pos hx] at hc; exact ih c hc
    · rw [if_neg hx] at hc
      simp only [List.head?_cons, Option.some.injEq] at hc
      cases hc
      simpa using hx

theorem chain_squashWsAux :
    ∀ (l : List Char) (b : Bool), List.Chain' noAdjWsRel (squashWsAux b l) := by
  intro l
  induction l with
  | nil => intro b; cases b <;> simp [squashWsAux]
  | cons x rest ih =>
    intro b
    cases b <;> simp only [squashWsAux]
    · by_cases hx : isWs x = true
      · rw [if_pos hx]
        refine List.chain'_cons'.mpr ⟨?_, ih true⟩
        intro y hy
        have hns := head_squashWsAux_true rest y hy
        exact fun h => by simp [hns] at h
      · rw [if_neg hx]
        refine List.chain'_cons'.mpr ⟨?_, ih false⟩
        intro y _
        exact fun h => absurd h.1 hx
    · by_cases hx : isWs x = true
      · rw [if_pos hx]; exact ih true
      · rw [if_neg hx]
        refine List.chain'_cons'.mpr ⟨?_, ih false⟩
        intro y _
        exact fun h => absurd h.1 hx

theorem mem_stripWs {c : Char} {l : List Char} (h : c ∈ stripWs l) : c ∈ l := by
  unfold stripWs at h
  rw [List.mem_reverse] at h
  have h1 := ((List.dropWhile_suffix isWs).sublist.subset) h
  rw [List.mem_reverse] at h1
  exact ((List.dropWhile_suffix isWs).sublist.subset) h1

theorem chain_stripWs {l : List Char} (h : List.Chain' noAdjWsRel l) :
    List.Chain' noAdjWsRel (stripWs l) := by
  unfold stripWs
  have symmRel : ∀ a b : Char, noAdjWsRel a b → noAdjWsRel b a := by
    intro a b hab hc
    exact hab ⟨hc.2, hc.1⟩
  have h1 : List.Chain' noAdjWsRel (l.dropWhile isWs) := by
    obtain ⟨t, ht⟩ := List.dropWhile_suffix (l := l) isWs
    rw [← ht] at h
    exact h.right_of_append
  have h2 : List.Chain' noAdjWsRel (l.dropWhile isWs).reverse := by
    rw [List.chain'_reverse]
    exact h1.imp fun a b hab => symmRel a b hab
  have h3 : List.Chain' noAdjWsRel ((l.dropWhile isWs).reverse.dropWhile isWs) := by
    obtain ⟨t, ht⟩ := List.dropWhile_suffix (l := (l.dropWhile isWs).reverse) isWs
    rw [← ht] at h2
    exact h2.right_of_append
  rw [List.chain'_reverse]
  exact h3.imp fun a b hab => symmRel a b hab

theorem head_stripWs {c : Char} {l : List Char}
    (h : (stripWs l).head? = some c) : isWs c = false := by
  have hpre : ((l.dropWhile isWs).reverse.dropWhile isWs).reverse <+: l.dropWhile isWs := by
    have hs := List.dropWhile_suffix (l := (l.dropWhile isWs).reverse) isWs
    have := List.reverse_prefix.mpr hs
    simpa using this
  obtain ⟨t, ht⟩ := hpre
  have hd : (l.dropWhile isWs).head? = some c := by
    rw [← ht, List.head?_append]
    unfold stripWs at h
    rw [h]
    rfl
  have hw := List.head?_dropWhile_not isWs l
  rw [hd] at hw
  exact hw

theorem getLast_stripWs {c : Char} {l : List Char}
    (h : (stripWs l).getLast? = some c) : isWs c = false := by
  unfold stripWs at h
  rw [List.getLast?_reverse] at h
  have hw := List.head?_dropWhile_not isWs (l.dropWhile isWs).reverse
  rw [h] at hw
  exact hw

/-- The output of the whitespace-collapsing step is collapsed text. -/
theorem collapsedText_collapseWs (l : List Char) : CollapsedText (collapseWs l) := by
  refine ⟨?_, ?_, ?_, ?_⟩
  · intro c hc hw
    exact squashWsAux_ws_eq_space l false c (mem_stripWs hc) hw
  · intro c hc
    exact head_stripWs hc
  · intro c hc
    exact getLast_stripWs hc
  · exact chain_stripWs (chain_squashWsAux l false)

/-- Unfolding equation for `normalize_basename`. -/
theorem normalize_basename_eq (name : String) :
    normalize_basename name =
      match partTokenSearch (stemList name.data) with
      | some m =>
          (String.mk (collapseWs (partTokenSubAll (stemList name.data))), partOfNum m.num)
      | none =>
        match abTokenSearch (stemList name.data) with
        | some m2 =>
            (String.mk (collapseWs (abTokenSubAll (stemList name.data))),
              if m2.ab.toUpper = 'A' then some 1
              else if m2.ab.toUpper = 'B' then some 2 else none)
        | none => (String.mk (stemList name.data), none) := rfl

/-- Stability of the ordered insert: filtering the result on a part
value `k` either prepends `a` (when `a.part = k`) or leaves the filtered
list unchanged — the entries skipped before the insertion point all have
parts strictly below `a.part`. -/
theorem filter_orderedInsert_part (k : Int) (a : GroupEntry) :
    ∀ l : List GroupEntry,
      (l.orderedInsert partLE a).filter (fun e => e.part == k) =
        if a.part == k then a :: l.filter (fun e => e.part == k)
        else l.filter (fun e => e.part == k) := by
  intro l
  induction l with
  | nil => simp [List.orderedInsert, List.filter_cons]
  | cons b t ih =>
    simp only [List.orderedInsert]
    by_cases hab : partLE a b
    · rw [if_pos hab, List.filter_cons]
    · rw [if_neg hab, List.filter_cons, ih, List.filter_cons]
      by_cases hak : a.part = k
      · have hbk : b.part ≠ k := fun hbk =>
          hab (by simp only [partLE, hak, hbk]; exact le_refl k)
        simp [hak, hbk]
      · simp [hak]

/-- Stability of the planner sort: for every part value the subsequence
of entries carrying that part is preserved in its original order. -/
theorem filter_sortByPart (k : Int) :
    ∀ items : List GroupEntry,
      (sortByPart items).filter (fun e => e.part == k) =
        items.filter (fun e => e.part == k) := by
  intro items
  induction items with
  | nil => rfl
  | cons a t ih =>
    simp only [sortByPart, List.insertionSort] at ih ⊢
    rw [filter_orderedInsert_part, ih, List.filter_cons]

/-- Every entry of every bucket has a nonempty file list. -/
def GoodEntries (gs : List ((String × String) × List GroupEntry)) : Prop :=
  ∀ g ∈ gs, ∀ e ∈ g.2, e.scene.files ≠ []

theorem goodEntries_addToGroups {gs : List ((String × String) × List GroupEntry)}
    {k : String × String} {e : GroupEntry}
    (hg : GoodEntries gs) (he : e.scene.files ≠ []) :
    GoodEntries (addToGroups gs k e) := by
  induction gs with
  | nil =>
      intro g hgm e' he'
      simp only [addToGroups, List.mem_singleton] at hgm
      subst hgm
      simp only [List.mem_singleton] at he'
      subst he'
      exact he
  | cons p rest ih =>
    obtain ⟨k', es⟩ := p
    simp only [addToGroups]
    by_cases hk : k' = k
    · rw [if_pos hk]
      intro g hgm e' he'
      rcases List.mem_cons.mp hgm with rfl | hgm
      · rcases List.mem_append.mp he' with hl | hr
        · exact hg (k', es) (List.mem_cons_self _ _) e' hl
        · simp only [List.mem_singleton] at hr
          subst hr
          exact he
      · exact hg g (List.mem_cons_of_mem _ hgm) e' he'
    · rw [if_neg hk]
      intro g hgm e' he'
      rcases List.mem_cons.mp hgm with rfl | hgm
      · exact hg (k', es) (List.mem_cons_self _ _) e' he'
      · exact ih (fun g' hg' => hg g' (List.mem_cons_of_mem _ hg')) g hgm e' he'

theorem goodEntries_groupStep {gs : List ((String × String) × List GroupEntry)}
    (hg : GoodEntries gs) (sc : MediaRecord) : GoodEntries (groupStep gs sc) := by
  cases hf : sc.files with
  | nil => simp only [groupStep, hf]; exact hg
  | cons f fs =>
    simp only [groupStep, hf]
    cases hp : (normalize_basename f.basename).2 with
    | none => exact hg
    | some p =>
        exact goodEntries_addToGroups hg (by simp [hf])

theorem goodEntries_foldl :
    ∀ (recs : List MediaRecord) (gs : List ((String × String) × List GroupEntry)),
      GoodEntries gs → GoodEntries (recs.foldl groupStep gs) := by
  intro recs
  induction recs with
  | nil => intro gs hg; exact hg
  | cons r rs ih =>
      intro gs hg
      exact ih (groupStep gs r) (goodEntries_groupStep hg r)

theorem goodEntries_buildGroups (recs : List MediaRecord) :
    GoodEntries (buildGroups recs) :=
  goodEntries_foldl recs [] (by intro g hg; simp at hg)

/-- Every plan of a bucket takes its target and sources from the
bucket's entries. -/
theorem planBucket_scenes {k : String × String} {items : List GroupEntry}
    {p : MergePlan} (h : planBucket k items = some p) :
    (∃ e ∈ items, p.target = e.scene) ∧
      ∀ s ∈ p.sources, ∃ e ∈ items, s = e.scene := by
  unfold planBucket at h
  by_cases hlen : items.length < 2
  · rw [if_pos hlen] at h
    exact absurd h (by simp)
  · rw [if_neg hlen] at h
    cases hs : sortByPart items with
    | nil => rw [hs] at h; exact absurd h (by simp)
    | cons t rest =>
        rw [hs] at h
        have hp := Option.some.inj h
        subst hp
        have ht : t ∈ items := by
          have : t ∈ sortByPart items := by rw [hs]; exact List.mem_cons_self _ _
          simpa [sortByPart, List.mem_insertionSort] using this
        refine ⟨⟨t, ht, rfl⟩, ?_⟩
        intro s hsrc
        simp only [List.mem_map] at hsrc
        obtain ⟨e, he, rfl⟩ := hsrc
        have : e ∈ sortByPart items := by rw [hs]; exact List.mem_cons_of_mem _ he
        exact ⟨e, by simpa [sortByPart, List.mem_insertionSort] using this, rfl⟩

/-- Records used by the end-to-end scenario (spec section 8). -/
def c8rec1 : MediaRecord :=
  ⟨"1", "Scene A pt1", [⟨"/vids/Scene A pt1.mp4", "Scene A pt1.mp4"⟩], []⟩

def c8rec2 : MediaRecord :=
  ⟨"2", "Scene A pt2", [⟨"/vids/Scene A pt2.mp4", "Scene A pt2.mp4"⟩], []⟩

def c8rec3 : MediaRecord :=
  ⟨"3", "Scene B", [⟨"/vids/Scene B.mp4", "Scene B.mp4"⟩], []⟩

/-- Entries with parts 2, 1, 3 in discovery order. -/
def c7entry1 : GroupEntry := ⟨⟨"a", "A", [⟨"/d/a.mp4", "a.mp4"⟩], []⟩, 2, "a.mp4"⟩

def c7entry2 : GroupEntry := ⟨⟨"b", "B", [⟨"/d/b.mp4", "b.mp4"⟩], []⟩, 1, "b.mp4"⟩

def c7entry3 : GroupEntry := ⟨⟨"c", "C", [⟨"/d/c.mp4", "c.mp4"⟩], []⟩, 3, "c.mp4"⟩

/-- `partOfNum` is `none` exactly when the capture is not all digits and
its roman-decoded total is non-positive. -/
theorem partOfNum_eq_none_iff (num : List Char) (hne : num ≠ []) :
    (partOfNum num = none ↔ num.all isDigitC = false ∧ romanTotalOf num ≤ 0) := by
  by_cases hd : num.all isDigitC = true
  · simp [partOfNum, hne, hd]
  · simp only [Bool.not_eq_true] at hd
    by_cases ht : romanTotalOf num > 0
    · have hne0 : romanTotalOf num ≠ 0 := by omega
      simp [partOfNum, hd, roman_to_int, pyOrNone, ht, hne0]
    · simp [partOfNum, hd, roman_to_int, pyOrNone, ht]
      omega

/-- Unfolding of `normalize_basename` when the explicit pattern matches. -/
theorem normalize_basename_part (name : String) (m : TokenMatch)
    (h : partTokenSearch (stemList name.data) = some m) :
    normalize_basename name =
      (String.mk (collapseWs (partTokenSubAll (stemList name.data))),
        partOfNum m.num) := by
  rw [normalize_basename_eq, h]

/-- Unfolding of `normalize_basename` when neither pattern matches. -/
theorem normalize_basename_nomatch (name : String)
    (h1 : partTokenSearch (stemList name.data) = none)
    (h2 : abTokenSearch (stemList name.data) = none) :
    normalize_basename name = (stemOf name, none) := by
  rw [normalize_basename_eq, h1, h2]
  rfl

/-- C1, counterexample: for the basename `"pt1.mp4"`, whose stem consists
only of a part token, the parser finds the token (partNumber 1) and
returns the EMPTY string as normalizedBase — refuting the claim that the
normalizedBase is never empty. -/
theorem claim1_counterexample :
    (normalize_basename "pt1.mp4").1 = "" ∧
      (normalize_basename "pt1.mp4").2 = some 1 ∧
      stemOf "pt1.mp4" = "pt1" := by decide

/-- C1, amended: for every input basename the normalizedBase is
whitespace-collapsed text whenever one of the two token patterns matched
the stem (in which case it MAY be empty, e.g. when the stem is exactly
one token), and is the original stem unchanged whenever no token was
found. -/
theorem claim1_normalizedBase_collapsed_or_stem (name : String) :
    ((partTokenSearch (stemList name.data) ≠ none ∨
        abTokenSearch (stemList name.data) ≠ none) →
      CollapsedText ((normalize_basename name).1).data) ∧
      (partTokenSearch (stemList name.data) = none →
        abTokenSearch (stemList name.data) = none →
        (normalize_basename name).1 = stemOf name) := by
  constructor
  · intro hmatch
    rw [normalize_basename_eq]
    cases hp : partTokenSearch (stemList name.data) with
    | some m => exact collapsedText_collapseWs _
    | none =>
      cases ha : abTokenSearch (stemList name.data) with
      | some m2 => exact collapsedText_collapseWs _
      | none =>
          rcases hmatch with h | h
          · exact absurd hp h
          · exact absurd ha h
  · intro h1 h2
    rw [normalize_basename_nomatch name h1 h2]

/-- C1, witness: the token-found conditional at `"disc 2.mp4"` (explicit
pattern matches) and the no-token conditional at `"plain.mp4"`. -/
theorem claim1_witness :
    CollapsedText ((normalize_basename "disc 2.mp4").1).data ∧
      (normalize_basename "plain.mp4").1 = stemOf "plain.mp4" :=
  ⟨(claim1_normalizedBase_collapsed_or_stem "disc 2.mp4").1 (Or.inl (by decide)),
   (claim1_normalizedBase_collapsed_or_stem "plain.mp4").2 (by decide) (by decide)⟩

/-- C2: for every basename whose stem matches the explicit part grammar
with a digit capture, `parse` returns partNumber equal to the capture
read as a base-10 integer, and a normalizedBase equal to the stem with
the token occurrences removed and whitespace collapsed. -/
theorem claim2_digit_token_parse (name : String) (m : TokenMatch)
    (h : partTokenSearch (stemList name.data) = some m)
    (hne : m.num ≠ []) (hdig : m.num.all isDigitC = true) :
    normalize_basename name =
      (String.mk (collapseWs (partTokenSubAll (stemList name.data))),
        some (digitsToInt m.num)) := by
  rw [normalize_basename_part name m h]
  unfold partOfNum
  rw [if_pos ⟨hne, hdig⟩]

/-- C2, witness at `"Movie part-02.mp4"`. -/
theorem claim2_witness :
    normalize_basename "Movie part-02.mp4" = ("Movie", some 2) :=
  (claim2_digit_token_parse "Movie part-02.mp4" ⟨5, 13, ['0', '2']⟩ (by decide)
      (by decide) (by decide)).trans (by decide)

/-- C3: the roman decoding agrees with standard subtractive notation on
every canonical roman numeral over I/V/X of at most 6 characters
(`canonicalRoman n` for `1 ≤ n < 40`), in particular on IV, IX, XII and
III, and a decoded total of 0 yields a null part number. -/
theorem claim3_roman_decoding :
    (∀ n : Nat, n < 40 → 1 ≤ n → (canonicalRoman n).length ≤ 6 →
        roman_to_int (canonicalRoman n) = some (n : Int)) ∧
      roman_to_int ['I', 'V'] = some 4 ∧ roman_to_int ['I', 'X'] = some 9 ∧
      roman_to_int ['X', 'I', 'I'] = some 12 ∧ roman_to_int ['I', 'I', 'I'] = some 3 ∧
      ∀ s : List Char, romanTotalOf s = 0 → pyOrNone (roman_to_int s) = none := by
  refine ⟨by decide, by decide, by decide, by decide, by decide, ?_⟩
  intro s hs
  simp [roman_to_int, pyOrNone, hs]

/-- C3, witness: the bounded statement applied at `n = 12`, and the
zero-total fallback applied at `"VVX"`. -/
theorem claim3_witness :
    roman_to_int (canonicalRoman 12) = some 12 ∧
      pyOrNone (roman_to_int ['V', 'V', 'X']) = none :=
  ⟨claim3_roman_decoding.1 12 (by decide) (by decide) (by decide),
   claim3_roman_decoding.2.2.2.2.2 ['V', 'V', 'X'] (by decide)⟩

/-- C5, counterexample: for `" x .mp4"` neither pattern matches and the
parser returns the stem `" x "` UNMODIFIED, not the whitespace-trimmed
stem `"x"` the claim predicts. -/
theorem claim5_counterexample :
    normalize_basename " x .mp4" = (" x ", none) ∧
      String.mk (stripWs (stemList " x .mp4".data)) = "x" ∧
      (" x " : String) ≠ "x" := by decide

/-- C5, amended: when neither the explicit part pattern nor the A/B
pattern matches the stem, `parse` returns partNumber null and the stem
unmodified (hence equal to the trimmed stem only when the stem carries
no surrounding whitespace). -/
theorem claim5_no_token_returns_stem (name : String)
    (h1 : partTokenSearch (stemList name.data) = none)
    (h2 : abTokenSearch (stemList name.data) = none) :
    normalize_basename name = (stemOf name, none) :=
  normalize_basename_nomatch name h1 h2

/-- C5, witness at `"hello.mp4"`. -/
theorem claim5_witness : normalize_basename "hello.mp4" = ("hello", none) :=
  (claim5_no_token_returns_stem "hello.mp4" (by decide) (by decide)).trans (by decide)

/-- C6, counterexample: for `"pt1 pt2.mp4"` the removal step does NOT
strip all occurrences of the token pattern: the first match `"pt1 "`
consumes the separating space, so the overlapping occurrence `" pt2"`
survives and the returned base `"pt2"` still matches the pattern. -/
theorem claim6_counterexample :
    normalize_basename "pt1 pt2.mp4" = ("pt2", some 1) ∧
      partTokenSearch ((normalize_basename "pt1 pt2.mp4").1).data ≠ none := by decide

/-- C6, amended: the part number is taken from the first (leftmost)
match only, and the removal step strips the NON-OVERLAPPING occurrences
found scanning left to right (Python `re.sub` semantics) — an occurrence
overlapping an earlier match's consumed boundary character survives. -/
theorem claim6_leftmost_number_nonoverlapping_removal (name : String) (m : TokenMatch)
    (h : partTokenSearch (stemList name.data) = some m) :
    (normalize_basename name).2 = partOfNum m.num ∧
      (normalize_basename name).1 =
        String.mk (collapseWs (partTokenSubAll (stemList name.data))) := by
  rw [normalize_basename_part name m h]
  exact ⟨rfl, rfl⟩

/-- C6, witness at `"a pt1 pt2.mp4"`: the number comes from the leftmost
token, removal leaves the overlapping second token in place. -/
theorem claim6_witness :
    (normalize_basename "a pt1 pt2.mp4").2 = some 1 ∧
      (normalize_basename "a pt1 pt2.mp4").1 = "a pt2" := by
  have h := claim6_leftmost_number_nonoverlapping_removal "a pt1 pt2.mp4"
    ⟨1, 6, ['1']⟩ (by decide)
  exact ⟨h.1.trans (by decide), h.2.trans (by decide)⟩

/-- C10, counterexample: the stem of `"pt VVX.mp4"` matches the explicit
part pattern with roman capture `"VVX"`, whose decoded total is 0, and
the parser returns a NULL part number — the zero-value fallback is
reachable, refuting the claim. -/
theorem claim10_counterexample :
    partTokenSearch (stemList "pt VVX.mp4".data) ≠ none ∧
      (normalize_basename "pt VVX.mp4").2 = none ∧
      romanTotalOf ['V', 'V', 'X'] = 0 := by decide

/-- C10, amended: for every basename whose stem matches the explicit
pattern, the part number is null exactly when the capture is not a digit
string and its roman-decoded total is non-positive; digit captures
always give a non-null (though possibly zero) part number, but some
roman captures of 1-6 I/V/X characters decode to a non-positive total,
so the null fallback is reachable. -/
theorem claim10_null_part_iff (name : String) (m : TokenMatch)
    (h : partTokenSearch (stemList name.data) = some m) (hne : m.num ≠ []) :
    ((normalize_basename name).2 = none ↔
      m.num.all isDigitC = false ∧ romanTotalOf m.num ≤ 0) := by
  rw [normalize_basename_part name m h]
  exact partOfNum_eq_none_iff m.num hne

/-- C10, witness at `"disc iii.mp4"`: roman capture `"iii"` has positive
total, so the part number is non-null. -/
theorem claim10_witness : (normalize_basename "disc iii.mp4").2 ≠ none := by
  have h := claim10_null_part_iff "disc iii.mp4" ⟨0, 8, ['i', 'i', 'i']⟩
    (by decide) (by decide)
  intro hn
  have hc := h.mp hn
  revert hc
  decide

/-- C4, counterexample: the title regex of the code is `\b(kw)[ _.\-]*\d+\b`
with ONE OR MORE digits and word boundaries, not the section-4.1 grammar
restricted to 1-2 digit numbers: for the title `"Show part 123"` the
section-4.1 digit grammar matches nothing (so the claim predicts an
unchanged recommendation), yet the code recommends `"Show"`. -/
theorem claim4_counterexample :
    recommendTitle "Show part 123" = some "Show" ∧
      specTitleClean "Show part 123" = "Show part 123" := by decide

/-- C4, amended: the recommended title is the target's original title
with every word-boundary-delimited `keyword + optional separators + one
or more digits` substring removed, stripped, and whitespace runs of two
or more collapsed to one space; the recommendation is issued exactly
when that cleaned result is nonempty and differs from the original. -/
theorem claim4_title_recommendation :
    (∀ title : String, recommendTitle title = none ↔
        (cleanTitle title = "" ∨ cleanTitle title = title)) ∧
      (∀ title t : String, recommendTitle title = some t → t = cleanTitle title) ∧
      recommendTitle "My Show part 2" = some "My Show" ∧
      recommendTitle "My Show" = none := by
  refine ⟨?_, ?_, by decide, by decide⟩
  · intro title
    unfold recommendTitle
    by_cases h1 : cleanTitle title = ""
    · simp [h1]
    · by_cases h2 : cleanTitle title = title
      · simp [h1, h2]
      · simp [h1, h2]
  · intro title t h
    unfold recommendTitle at h
    by_cases hc : cleanTitle title ≠ "" ∧ cleanTitle title ≠ title
    · rw [if_pos hc] at h
      exact (Option.some.inj h).symm
    · rw [if_neg hc] at h
      exact absurd h (by simp)

/-- C4, witness: the issued recommendation for `"My Show part 2"` is the
cleaned title. -/
theorem claim4_witness : ("My Show" : String) = cleanTitle "My Show part 2" :=
  claim4_title_recommendation.2.1 "My Show part 2" "My Show" (by decide)

/-- C7: for every bucket of at least two entries the planner sorts by
part ascending (stably: each part value's subsequence keeps its
discovery order), the target is the head of the sorted list — an entry
of minimal part — and the sources are the remaining entries in sorted
order; and for discovery order with parts [2, 1, 3] the target is the
part-1 entry with sources [part-2 entry, part-3 entry]. -/
theorem claim7_planner_sorts_stably :
    (∀ (k : String × String) (items : List GroupEntry), 2 ≤ items.length →
      ∃ t rest, sortByPart items = t :: rest ∧
        planBucket k items = some ⟨k, t.scene, rest.map (·.scene)⟩ ∧
        List.Sorted partLE (t :: rest) ∧
        List.Perm (t :: rest) items ∧
        (∀ e ∈ items, t.part ≤ e.part) ∧
        (∀ q : Int, (t :: rest).filter (fun e => e.part == q) =
          items.filter (fun e => e.part == q))) ∧
      planBucket ("/d", "v") [c7entry1, c7entry2, c7entry3] =
        some ⟨("/d", "v"), c7entry2.scene, [c7entry1.scene, c7entry3.scene]⟩ := by
  refine ⟨?_, by decide⟩
  intro k items hlen
  cases hs : sortByPart items with
  | nil =>
      exfalso
      have hperm : List.Perm (sortByPart items) items :=
        List.perm_insertionSort partLE items
      have := hperm.length_eq
      rw [hs] at this
      simp at this
      omega
  | cons t rest =>
      have hsorted : List.Sorted partLE (t :: rest) := by
        have := List.sorted_insertionSort partLE items
        rwa [show items.insertionSort partLE = sortByPart items from rfl, hs] at this
      have hperm : List.Perm (t :: rest) items := by
        have := List.perm_insertionSort partLE items
        rwa [show items.insertionSort partLE = sortByPart items from rfl, hs] at this
      refine ⟨t, rest, rfl, ?_, hsorted, hperm, ?_, ?_⟩
      · unfold planBucket
        rw [if_neg (by omega), hs]
      · intro e he
        have he' : e ∈ t :: rest := by
          rw [← hs]
          exact (List.mem_insertionSort partLE).mpr he
        rcases List.mem_cons.mp he' with rfl | he''
        · exact le_refl _
        · exact List.rel_of_sorted_cons hsorted e he''
      · intro q
        rw [← hs]
        exact filter_sortByPart q items

/-- C7, witness: the general statement applied to the concrete bucket
with parts in discovery order [2, 1, 3]. -/
theorem claim7_witness :
    ∃ t rest, sortByPart [c7entry1, c7entry2, c7entry3] = t :: rest ∧
      planBucket ("/d", "w") [c7entry1, c7entry2, c7entry3] =
        some ⟨("/d", "w"), t.scene, rest.map (·.scene)⟩ ∧
      List.Sorted partLE (t :: rest) ∧
      List.Perm (t :: rest) [c7entry1, c7entry2, c7entry3] ∧
      (∀ e ∈ [c7entry1, c7entry2, c7entry3], t.part ≤ e.part) ∧
      (∀ q : Int, (t :: rest).filter (fun e => e.part == q) =
        [c7entry1, c7entry2, c7entry3].filter (fun e => e.part == q)) :=
  claim7_planner_sorts_stably.1 ("/d", "w") [c7entry1, c7entry2, c7entry3] (by decide)

/-- C8: for the three records with first files `"Scene A pt1.mp4"`,
`"Scene A pt2.mp4"` and `"Scene B.mp4"` in directory `"/vids"`, the
pipeline produces exactly one merge plan, keyed `("/vids", "scene a")`,
whose target is the pt1 record and whose sources are exactly the pt2
record; the `"Scene B"` record appears in no plan. -/
theorem claim8_end_to_end :
    pipelinePlans [c8rec1, c8rec2, c8rec3] =
      [⟨("/vids", "scene a"), c8rec1, [c8rec2]⟩] := by decide

/-- C9: a record with an empty file-reference list is never placed into
any group bucket (every bucketed entry's record has nonempty files) and
consequently the target and sources of every merge plan have nonempty
file lists. -/
theorem claim9_empty_files_never_grouped (recs : List MediaRecord) :
    (∀ g ∈ buildGroups recs, ∀ e ∈ g.2, e.scene.files ≠ []) ∧
      (∀ p ∈ pipelinePlans recs,
        p.target.files ≠ [] ∧ ∀ s ∈ p.sources, s.files ≠ []) := by
  have hg := goodEntries_buildGroups recs
  refine ⟨hg, ?_⟩
  intro p hp
  obtain ⟨g, hgm, hpb⟩ := List.mem_filterMap.mp hp
  obtain ⟨⟨e, he, hte⟩, hsrc⟩ := planBucket_scenes hpb
  constructor
  · rw [hte]
    exact hg g hgm e he
  · intro s hs
    obtain ⟨e2, he2, rfl⟩ := hsrc s hs
    exact hg g hgm e2 he2

/-- C9, witness: applied to the end-to-end records and the plan they
produce. -/
theorem claim9_witness :
    (⟨("/vids", "scene a"), c8rec1, [c8rec2]⟩ : MergePlan).target.files ≠ [] :=
  ((claim9_empty_files_never_grouped [c8rec1, c8rec2, c8rec3]).2
    ⟨("/vids", "scene a"), c8rec1, [c8rec2]⟩ (by decide)).1

end MergeVR
